import Mathlib

/-!
# Verification of the ActivityWatch analytics core (dotfiles scripts)

Shallow embedding of the pure core of `scripts/aw_analytics_export.py` and
`scripts/aw_notion_sync.py`: interval merging, AFK reconciliation, hour
bucketing, event deduplication, classification, aggregation and report
generation.  Instants and durations (Python `datetime` / `float` seconds)
are modelled as rationals; Python dicts are modelled as association lists
(dict insertion order is preserved by Python, and by the lists here).
-/

namespace AW

/-- An interval of time, `(start, end)`, as used by `merge_intervals`. -/
abbrev Ivl := ℚ × ℚ

/-- Comparison key used by `merge_intervals`' sort: `key=lambda x: x[0]`. -/
def startLE (p q : Ivl) : Prop := p.1 ≤ q.1

instance : DecidableRel startLE := fun p q => inferInstanceAs (Decidable (p.1 ≤ q.1))

instance : IsTotal Ivl startLE := ⟨fun p q => le_total p.1 q.1⟩

instance : IsTrans Ivl startLE := ⟨fun _ _ _ h h' => le_trans h h'⟩

/-- The scan loop of `merge_intervals`: `merged` holds the running interval
(the Python code's `merged[-1]`); each next sorted interval either extends it
(when `start <= last_end`) or closes it and starts a new one. -/
def mergeLoop : Ivl → List Ivl → List Ivl
  | cur, [] => [cur]
  | cur, (s, e) :: rest =>
      if s ≤ cur.2 then mergeLoop (cur.1, max cur.2 e) rest
      else cur :: mergeLoop (s, e) rest

/-- `merge_intervals` from `aw_analytics_export.py` (identical copy in
`aw_notion_sync.py`): sort by start (Python's stable sort, here a stable
insertion sort on the same key), then scan once merging overlapping or
exactly-touching intervals. -/
def merge_intervals (intervals : List Ivl) : List Ivl :=
  match List.insertionSort startLE intervals with
  | [] => []
  | first :: rest => mergeLoop first rest

/-- A time point `x` lies in the half-open interval `[start, end)`. -/
def inIvl (x : ℚ) (p : Ivl) : Prop := p.1 ≤ x ∧ x < p.2

/-- A time point is covered by (the union of) a list of intervals. -/
def covers (x : ℚ) (l : List Ivl) : Prop := ∃ p ∈ l, inIvl x p

instance (x : ℚ) (p : Ivl) : Decidable (inIvl x p) :=
  inferInstanceAs (Decidable (_ ∧ _))

instance (x : ℚ) (l : List Ivl) : Decidable (covers x l) :=
  inferInstanceAs (Decidable (∃ _ ∈ _, _))

/-- Strict separation between successive output intervals: the previous
interval's end lies strictly before the next interval's start. -/
def gapRel (a b : Ivl) : Prop := a.2 < b.1

instance : DecidableRel gapRel := fun a b => inferInstanceAs (Decidable (a.2 < b.1))

theorem mergeLoop_first : ∀ (rest : List Ivl) (cur : Ivl),
    ∃ b tl, mergeLoop cur rest = (cur.1, b) :: tl ∧ cur.2 ≤ b
  | [], cur => ⟨cur.2, [], rfl, le_refl _⟩
  | (s, e) :: rest, cur => by
    by_cases h : s ≤ cur.2
    · obtain ⟨b, tl, heq, hle⟩ := mergeLoop_first rest (cur.1, max cur.2 e)
      exact ⟨b, tl, by simp [mergeLoop, h, heq], le_trans (le_max_left _ _) hle⟩
    · exact ⟨cur.2, mergeLoop (s, e) rest, by simp [mergeLoop, h], le_refl _⟩

theorem mergeLoop_gap_valid : ∀ (rest : List Ivl) (cur : Ivl),
    cur.1 ≤ cur.2 → (∀ p ∈ rest, p.1 ≤ p.2) → List.Sorted startLE (cur :: rest) →
    (∀ p ∈ mergeLoop cur rest, p.1 ≤ p.2) ∧ List.Chain' gapRel (mergeLoop cur rest)
  | [], cur, hcur, _, _ => by
    refine ⟨fun p hp => ?_, ?_⟩
    · simp only [mergeLoop, List.mem_singleton] at hp
      simpa [hp] using hcur
    · simp [mergeLoop]
  | (s, e) :: rest, cur, hcur, hrest, hsort => by
    have hsort' := List.sorted_cons.mp hsort
    have hrest' : ∀ p ∈ rest, p.1 ≤ p.2 := fun p hp => hrest p (List.mem_cons_of_mem _ hp)
    by_cases h : s ≤ cur.2
    · have hnewvalid : (cur.1, max cur.2 e).1 ≤ (cur.1, max cur.2 e).2 :=
        le_trans hcur (le_max_left _ _)
      have hnewsort : List.Sorted startLE ((cur.1, max cur.2 e) :: rest) := by
        refine List.sorted_cons.mpr ⟨fun b hb => ?_, hsort'.2.tail⟩
        exact hsort'.1 b (List.mem_cons_of_mem _ hb)
      have ih := mergeLoop_gap_valid rest (cur.1, max cur.2 e) hnewvalid hrest' hnewsort
      simpa [mergeLoop, h] using ih
    · have hsort2 : List.Sorted startLE ((s, e) :: rest) := hsort'.2
      have ih := mergeLoop_gap_valid rest (s, e)
        (hrest _ (List.mem_cons_self _ _)) hrest' hsort2
      obtain ⟨b, tl, heq, _⟩ := mergeLoop_first rest (s, e)
      constructor
      · intro p hp
        simp only [mergeLoop, if_neg h, List.mem_cons] at hp
        rcases hp with rfl | hp
        · exact hcur
        · exact ih.1 p hp
      · simp only [mergeLoop, if_neg h]
        rw [heq] at ih ⊢
        exact List.chain'_cons.mpr ⟨lt_of_not_le h, ih.2⟩

theorem gap_all : ∀ (l : List Ivl) (a : Ivl),
    List.Chain' gapRel (a :: l) → (∀ p ∈ l, p.1 ≤ p.2) → ∀ b ∈ l, gapRel a b
  | [], _, _, _ => by simp
  | c :: l, a, hchain, hvalid => by
    intro b hb
    have hac : gapRel a c := (List.chain'_cons.mp hchain).1
    rcases List.mem_cons.mp hb with rfl | hb'
    · exact hac
    · have hcv : c.1 ≤ c.2 := hvalid c (List.mem_cons_self _ _)
      have := gap_all l c (List.chain'_cons.mp hchain).2
        (fun p hp => hvalid p (List.mem_cons_of_mem _ hp)) b hb'
      exact lt_of_le_of_lt (le_trans (le_of_lt hac) hcv) this

theorem gap_pairwise : ∀ (l : List Ivl),
    List.Chain' gapRel l → (∀ p ∈ l, p.1 ≤ p.2) → List.Pairwise gapRel l
  | [], _, _ => List.Pairwise.nil
  | a :: l, hchain, hvalid => by
    have hvl : ∀ p ∈ l, p.1 ≤ p.2 := fun p hp => hvalid p (List.mem_cons_of_mem _ hp)
    exact List.pairwise_cons.mpr ⟨gap_all l a hchain hvl, gap_pairwise l hchain.tail hvl⟩

theorem mergeLoop_covers : ∀ (rest : List Ivl) (cur : Ivl),
    List.Sorted startLE (cur :: rest) →
    ∀ x, covers x (mergeLoop cur rest) ↔ (inIvl x cur ∨ covers x rest)
  | [], cur, _, x => by simp [mergeLoop, covers]
  | (s, e) :: rest, cur, hsort, x => by
    have hsort' := List.sorted_cons.mp hsort
    by_cases h : s ≤ cur.2
    · have hcs : cur.1 ≤ s := hsort'.1 (s, e) (List.mem_cons_self _ _)
      have hnewsort : List.Sorted startLE ((cur.1, max cur.2 e) :: rest) := by
        refine List.sorted_cons.mpr ⟨fun b hb => ?_, hsort'.2.tail⟩
        exact hsort'.1 b (List.mem_cons_of_mem _ hb)
      have ih := mergeLoop_covers rest (cur.1, max cur.2 e) hnewsort x
      simp only [mergeLoop, if_pos h]
      rw [ih]
      constructor
      · rintro (hm | hc)
        · -- x in the merged interval: it came from cur or from (s, e)
          rcases hm with ⟨h1, h2⟩
          by_cases hx : x < cur.2
          · exact Or.inl ⟨h1, hx⟩
          · push_neg at hx
            have hxe : x < e := by
              rcases le_or_lt e cur.2 with he | he
              · rw [max_eq_left he] at h2
                exact absurd h2 (not_lt.mpr hx)
              · rwa [max_eq_right (le_of_lt he)] at h2
            exact Or.inr ⟨(s, e), List.mem_cons_self _ _, le_trans h hx, hxe⟩
        · rcases hc with ⟨p, hp, hxp⟩
          exact Or.inr ⟨p, List.mem_cons_of_mem _ hp, hxp⟩
      · rintro (hc | ⟨p, hp, hxp⟩)
        · exact Or.inl ⟨hc.1, lt_of_lt_of_le hc.2 (le_max_left _ _)⟩
        · rcases List.mem_cons.mp hp with rfl | hp'
          · exact Or.inl ⟨le_trans hcs hxp.1, lt_of_lt_of_le hxp.2 (le_max_right _ _)⟩
          · exact Or.inr ⟨p, hp', hxp⟩
    · have ih := mergeLoop_covers rest (s, e) hsort'.2 x
      simp only [mergeLoop, if_neg h]
      constructor
      · rintro ⟨p, hp, hxp⟩
        rcases List.mem_cons.mp hp with rfl | hp'
        · exact Or.inl hxp
        · rcases ih.mp ⟨p, hp', hxp⟩ with hse | hcov
          · exact Or.inr ⟨(s, e), List.mem_cons_self _ _, hse⟩
          · rcases hcov with ⟨q, hq, hxq⟩
            exact Or.inr ⟨q, List.mem_cons_of_mem _ hq, hxq⟩
      · rintro (hc | ⟨p, hp, hxp⟩)
        · exact ⟨cur, List.mem_cons_self _ _, hc⟩
        · rcases List.mem_cons.mp hp with rfl | hp'
          · rcases ih.mpr (Or.inl hxp) with ⟨q, hq, hxq⟩
            exact ⟨q, List.mem_cons_of_mem _ hq, hxq⟩
          · rcases ih.mpr (Or.inr ⟨p, hp', hxp⟩) with ⟨q, hq, hxq⟩
            exact ⟨q, List.mem_cons_of_mem _ hq, hxq⟩

theorem mergeLoop_fixed : ∀ (rest : List Ivl) (cur : Ivl),
    List.Chain' gapRel (cur :: rest) → mergeLoop cur rest = cur :: rest
  | [], cur, _ => rfl
  | (s, e) :: rest, cur, hchain => by
    have h1 : gapRel cur (s, e) := (List.chain'_cons.mp hchain).1
    have : ¬ s ≤ cur.2 := not_le.mpr h1
    simp only [mergeLoop, if_neg this]
    rw [mergeLoop_fixed rest (s, e) (List.chain'_cons.mp hchain).2]

theorem sorted_of_gap_valid (l : List Ivl) (hchain : List.Chain' gapRel l)
    (hvalid : ∀ p ∈ l, p.1 ≤ p.2) : List.Sorted startLE l := by
  have hp := gap_pairwise l hchain hvalid
  exact hp.imp_of_mem (fun {a b} ha _ hg =>
    le_of_lt (lt_of_le_of_lt (hvalid a ha) hg))

theorem covers_perm {x : ℚ} {L1 L2 : List Ivl} (h : L1.Perm L2) :
    covers x L1 ↔ covers x L2 := by
  unfold covers
  constructor <;> rintro ⟨p, hp, hxp⟩
  exacts [⟨p, h.subset hp, hxp⟩, ⟨p, h.symm.subset hp, hxp⟩]

/-- **C1.** For every finite list of `(start, end)` pairs with `start ≤ end`,
`merge_intervals` returns a list that is sorted by start, strictly separated
(hence pairwise disjoint as sets of time points), covers exactly the same set
of time points as the union of the inputs (exactly-touching intervals being
merged), and is a fixed point of `merge_intervals`. -/
theorem merge_intervals_correct (l : List Ivl) (hvalid : ∀ p ∈ l, p.1 ≤ p.2) :
    List.Sorted startLE (merge_intervals l)
    ∧ List.Pairwise gapRel (merge_intervals l)
    ∧ List.Pairwise (fun a b => ∀ x : ℚ, ¬(inIvl x a ∧ inIvl x b)) (merge_intervals l)
    ∧ (∀ x, covers x (merge_intervals l) ↔ covers x l)
    ∧ merge_intervals (merge_intervals l) = merge_intervals l := by
  have hperm := List.perm_insertionSort startLE l
  have hsorted := List.sorted_insertionSort startLE l
  cases hs : List.insertionSort startLE l with
  | nil =>
    have hl : l = [] := (by rw [hs] at hperm; exact hperm.symm.eq_nil)
    subst hl
    refine ⟨by simp [merge_intervals], by simp [merge_intervals],
      by simp [merge_intervals], fun x => ?_, by simp [merge_intervals]⟩
    simp [merge_intervals, covers]
  | cons first rest =>
    rw [hs] at hperm hsorted
    have hvalid' : ∀ p ∈ first :: rest, p.1 ≤ p.2 := fun p hp => hvalid p (hperm.subset hp)
    have hM : merge_intervals l = mergeLoop first rest := by
      rw [merge_intervals, hs]
    have hgv := mergeLoop_gap_valid rest first (hvalid' _ (List.mem_cons_self _ _))
      (fun p hp => hvalid' p (List.mem_cons_of_mem _ hp)) hsorted
    have hpw := gap_pairwise _ hgv.2 hgv.1
    have hsortM := sorted_of_gap_valid _ hgv.2 hgv.1
    have hdisj : List.Pairwise (fun a b => ∀ x : ℚ, ¬(inIvl x a ∧ inIvl x b))
        (mergeLoop first rest) := by
      exact hpw.imp (fun {a b} hg x hx => absurd hx.2.1 (not_le.mpr (lt_trans hx.1.2 hg)))
    refine ⟨hM ▸ hsortM, hM ▸ hpw, hM ▸ hdisj, fun x => ?_, ?_⟩
    · rw [hM, mergeLoop_covers rest first hsorted x]
      have h1 : (inIvl x first ∨ covers x rest) ↔ covers x (first :: rest) := by
        simp [covers]
      rw [h1, covers_perm hperm]
    · rw [hM]
      obtain ⟨b, tl, heq, _⟩ := mergeLoop_first rest first
      have hsM : List.insertionSort startLE (mergeLoop first rest) = mergeLoop first rest :=
        hsortM.insertionSort_eq
      have hfix := mergeLoop_fixed tl (first.1, b) (heq ▸ hgv.2)
      rw [merge_intervals, hsM, heq]
      exact hfix

/-- Witness for `merge_intervals_correct` at a concrete interval list. -/
theorem merge_intervals_correct_witness :
    (∀ p ∈ ([((0 : ℚ), 2), (1, 3), (6, 7), (3, 4)] : List Ivl), p.1 ≤ p.2)
    ∧ (List.Sorted startLE (merge_intervals [((0 : ℚ), 2), (1, 3), (6, 7), (3, 4)])
       ∧ List.Pairwise gapRel (merge_intervals [((0 : ℚ), 2), (1, 3), (6, 7), (3, 4)])
       ∧ List.Pairwise (fun a b => ∀ x : ℚ, ¬(inIvl x a ∧ inIvl x b))
           (merge_intervals [((0 : ℚ), 2), (1, 3), (6, 7), (3, 4)])
       ∧ (∀ x, covers x (merge_intervals [((0 : ℚ), 2), (1, 3), (6, 7), (3, 4)]) ↔
           covers x [((0 : ℚ), 2), (1, 3), (6, 7), (3, 4)])
       ∧ merge_intervals (merge_intervals [((0 : ℚ), 2), (1, 3), (6, 7), (3, 4)]) =
           merge_intervals [((0 : ℚ), 2), (1, 3), (6, 7), (3, 4)]) :=
  ⟨by decide, merge_intervals_correct _ (by decide)⟩

/-! ## Strings and events -/

/-- `p` is an initial run of `l` (character-level matching helper). -/
def leadsWith : List Char → List Char → Bool
  | [], _ => true
  | _ :: _, [] => false
  | p :: ps, c :: cs => p == c && leadsWith ps cs

/-- Python's substring test `pat in s`, on the underlying character lists. -/
def hasSubChars (p : List Char) : List Char → Bool
  | [] => p.isEmpty
  | c :: t => leadsWith p (c :: t) || hasSubChars p t

/-- Python's `pat in s` for strings. -/
def hasSub (s pat : String) : Bool := hasSubChars pat.data s.data

/-- Python's `s.endswith(pat)`. -/
def endsWithStr (s pat : String) : Bool := leadsWith pat.data.reverse s.data.reverse

/-- Python's `s.lower()` (ASCII-sufficient for the names involved). -/
def lowerStr (s : String) : String := String.mk (s.data.map Char.toLower)

/-- Helper for `titleCase`: the boolean tracks whether the previous
character was alphabetic (Python `str.title` word-boundary rule). -/
def titleChars : Bool → List Char → List Char
  | _, [] => []
  | prevAlpha, c :: t =>
      (if c.isAlpha then (if prevAlpha then c.toLower else c.toUpper) else c) ::
        titleChars c.isAlpha t

/-- Python's `s.title()` (ASCII-sufficient for the app names involved). -/
def titleCase (s : String) : String := String.mk (titleChars false s.data)

/-- Strip an expected initial run, returning the remainder on success. -/
def dropPref : List Char → List Char → Option (List Char)
  | [], l => some l
  | _ :: _, [] => none
  | p :: ps, c :: cs => if p = c then dropPref ps cs else none

/-- The regex groups `(.+)` are non-empty. -/
def hostFromTail (t : List Char) : Option String :=
  if t.isEmpty then none else some (String.mk t)

/-- Split at the first underscore: `r = mid ++ underscore ++ tail` with no
underscore in `mid`. -/
def splitFirstUnderscore : List Char → Option (List Char × List Char)
  | [] => none
  | c :: t =>
      if c = '_' then some ([], t)
      else (splitFirstUnderscore t).map (fun pr => (c :: pr.1, pr.2))

/-- Tail of the pattern `^aw-watcher-web(?:-[^_]+)?_(.+)$` after the fixed
stem: either `_host` directly, or `-variant_host` with a non-empty,
underscore-free variant. -/
def webHost : List Char → Option String
  | [] => none
  | c :: t =>
      if c = '_' then hostFromTail t
      else
        if c = '-' then
          match splitFirstUnderscore t with
          | some (mid, tl) => if mid.isEmpty then none else hostFromTail tl
          | none => none
        else none

/-- `extract_host_from_bucket`: first the pattern
`^aw-watcher-(?:window|afk)_(.+)$`, then `^aw-watcher-web(?:-[^_]+)?_(.+)$`. -/
def extract_host_from_bucket (b : String) : Option String :=
  if b = "" then none
  else
    match dropPref ("aw-watcher-window_".data) b.data with
    | some t => hostFromTail t
    | none =>
      match dropPref ("aw-watcher-afk_".data) b.data with
      | some t => hostFromTail t
      | none =>
        match dropPref ("aw-watcher-web".data) b.data with
        | some rest => webHost rest
        | none => none

/-- An ActivityWatch event record as the analytics script sees it: the
tagging bucket (`_bucket`), the parsed start instant (`none` when the raw
timestamp text is missing or empty), the duration in seconds (0 when the
field is missing or null), and the payload fields with Python's `""`
defaults. -/
structure Event where
  bucket : String
  timestamp : Option ℚ
  duration : ℚ
  app : String
  title : String
  url : String
  status : String
  deriving DecidableEq, Repr

/-- The `host → Active Period Set` dict. -/
abbrev AfkMap := List (String × List Ivl)

/-- Python `dict.get` on an insertion-ordered association list. -/
def dictGet {α : Type} : List (String × α) → String → Option α
  | [], _ => none
  | (k', v) :: t, k => if k' = k then some v else dictGet t k

/-- One clip of `filter_events_by_afk`'s inner loop: intersect the event's
`[start, start + duration)` with one active interval, and emit a copy with
`timestamp = overlap start` and `duration = overlap length` when the
overlap is non-empty. -/
def clipToIvl (e : Event) (ts : ℚ) (iv : Ivl) : Option Event :=
  let os := max ts iv.1
  let oe := min (ts + e.duration) iv.2
  if os < oe then some { e with timestamp := some os, duration := oe - os } else none

/-- The per-event body of `filter_events_by_afk`'s loop. -/
def afkProcessEvent (periods : AfkMap) (e : Event) : List Event :=
  match extract_host_from_bucket e.bucket with
  | none => [e]
  | some host =>
    match dictGet periods host with
    | none => [e]
    | some hostPeriods =>
      if hostPeriods.isEmpty then []
      else
        match e.timestamp with
        | none => []
        | some ts => hostPeriods.filterMap (clipToIvl e ts)

/-- `filter_events_by_afk` from `aw_analytics_export.py`. -/
def filter_events_by_afk (events : List Event) (periods : AfkMap) : List Event :=
  if events.isEmpty then []
  else if periods.isEmpty then events
  else events.flatMap (afkProcessEvent periods)

/-- Stage-B case analysis of the spec's AFK Reconciler (§4.3), transcribed
from the spec's words: no extractable host → pass through unchanged;
untracked host → pass through unchanged (fail open); tracked host with an
empty Active Period Set → drop entirely; otherwise one output event per
interval of the host's set whose intersection with
`[start, start + duration)` is non-empty, with timestamp = intersection
start and duration = intersection length.  (In the clipping case an event
with no start instant yields nothing; that behaviour is settled separately
by the AFK interface-asymmetry theorem.) -/
def afkCaseSpec (periods : AfkMap) (e : Event) : List Event :=
  match extract_host_from_bucket e.bucket with
  | none => [e]
  | some host =>
    match dictGet periods host with
    | none => [e]
    | some [] => []
    | some (iv :: ivs) =>
      match e.timestamp with
      | none => []
      | some start =>
        (iv :: ivs).filterMap (fun p =>
          let interStart := max start p.1
          let interEnd := min (start + e.duration) p.2
          if interStart < interEnd then
            some { e with timestamp := some interStart, duration := interEnd - interStart }
          else none)

theorem afkProcessEvent_eq_spec (periods : AfkMap) (e : Event) :
    afkProcessEvent periods e = afkCaseSpec periods e := by
  unfold afkProcessEvent afkCaseSpec
  split
  · rfl
  · split
    · rename_i x hd
      rw [hd]
    · rename_i x hostPeriods hd
      rw [hd]
      cases hostPeriods with
      | nil => rfl
      | cons iv ivs =>
        cases e.timestamp with
        | none => rfl
        | some ts => rfl

/-- The concrete event of the spec's AFK example: it spans `[T-10, T+10)`
on a host whose Active Period Set is `[T, T+3600)`. -/
def c2ev (T : ℚ) : Event := ⟨"aw-watcher-window_host1", some (T - 10), 20, "", "", "", ""⟩

/-- **C2.** With a non-empty host map, `filter_events_by_afk` processes each
event independently, exactly as the spec's Stage-B case analysis
(`afkCaseSpec`) describes; in particular, for an Active Period Set
`[T, T+3600)` and an event covering `[T-10, T+10)`, the output is exactly
one event starting at `T` with duration `10`. -/
theorem filter_events_by_afk_cases (events : List Event) (periods : AfkMap)
    (hp : periods ≠ []) :
    filter_events_by_afk events periods = events.flatMap (afkCaseSpec periods)
    ∧ ∀ T : ℚ, filter_events_by_afk [c2ev T] [(("host1" : String), [(T, T + 3600)])] =
        [{ c2ev T with timestamp := some T, duration := 10 }] := by
  have hfe : afkProcessEvent periods = afkCaseSpec periods :=
    funext (afkProcessEvent_eq_spec periods)
  constructor
  · unfold filter_events_by_afk
    rw [hfe]
    cases events with
    | nil => simp
    | cons a t =>
      have h2 : periods.isEmpty = false := by
        cases periods with
        | nil => exact absurd rfl hp
        | cons q qs => rfl
      simp [h2]
  · intro T
    have hhost : extract_host_from_bucket ("aw-watcher-window_host1") = some ("host1") := by
      decide
    have h1 : max (T - 10) T = T := max_eq_right (by linarith)
    have h2 : min (T - 10 + 20) (T + 3600) = T - 10 + 20 := min_eq_left (by linarith)
    simp only [filter_events_by_afk, c2ev, List.isEmpty_cons, Bool.false_eq_true,
      if_false, List.flatMap_cons, List.flatMap_nil, List.append_nil,
      afkProcessEvent, hhost, dictGet, if_pos, List.filterMap_cons,
      List.filterMap_nil, clipToIvl, h1, h2]
    rw [if_pos (by linarith : T < T - 10 + 20)]
    have h3 : T - 10 + 20 - T = (10 : ℚ) := by ring
    rw [h3]

/-- Witness for `filter_events_by_afk_cases` at a concrete input. -/
theorem filter_events_by_afk_cases_witness :
    (([(("host1" : String), [((0 : ℚ), 0 + 3600)])] : AfkMap) ≠ [])
    ∧ (filter_events_by_afk [c2ev 0] [(("host1" : String), [((0 : ℚ), 0 + 3600)])] =
        [c2ev 0].flatMap (afkCaseSpec [(("host1" : String), [((0 : ℚ), 0 + 3600)])])
      ∧ ∀ T : ℚ, filter_events_by_afk [c2ev T] [(("host1" : String), [(T, T + 3600)])] =
          [{ c2ev T with timestamp := some T, duration := 10 }]) :=
  ⟨by decide, filter_events_by_afk_cases [c2ev 0] _ (by decide)⟩

/-- **C10.** Implicit asymmetry at the AFK-filter interface: with a
non-empty host map, an event whose host is tracked with a non-empty
active set but whose start instant is missing is dropped entirely; with an
entirely empty map, every event — including such timestamp-less ones — is
returned unchanged. -/
theorem afk_filter_asymmetry (e : Event) (events : List Event) (periods : AfkMap)
    (host : String) (ivs : List Ivl)
    (hts : e.timestamp = none)
    (hh : extract_host_from_bucket e.bucket = some host)
    (hl : dictGet periods host = some ivs)
    (hne : ivs ≠ []) :
    filter_events_by_afk [e] periods = [] ∧ filter_events_by_afk events [] = events := by
  constructor
  · have hpne : periods ≠ [] := by
      rintro rfl
      simp [dictGet] at hl
    have hpe : periods.isEmpty = false := by
      cases periods with
      | nil => exact absurd rfl hpne
      | cons q qs => rfl
    have hive : ivs.isEmpty = false := by
      cases ivs with
      | nil => exact absurd rfl hne
      | cons q qs => rfl
    simp [filter_events_by_afk, hpe, afkProcessEvent, hh, hl, hts, hive]
  · cases events with
    | nil => rfl
    | cons a t => rfl

/-- Witness for `afk_filter_asymmetry` at a concrete input. -/
theorem afk_filter_asymmetry_witness :
    ((⟨"aw-watcher-afk_h", none, 5, "", "", "", ""⟩ : Event).timestamp = none
     ∧ extract_host_from_bucket (Event.bucket ⟨"aw-watcher-afk_h", none, 5, "", "", "", ""⟩) =
         some ("h")
     ∧ dictGet ([(("h" : String), [((0 : ℚ), 1)])] : AfkMap) ("h") = some [(0, 1)]
     ∧ ([((0 : ℚ), 1)] : List Ivl) ≠ [])
    ∧ (filter_events_by_afk [⟨"aw-watcher-afk_h", none, 5, "", "", "", ""⟩]
         [(("h" : String), [((0 : ℚ), 1)])] = []
       ∧ filter_events_by_afk [⟨"aw-watcher-afk_h", none, 5, "", "", "", ""⟩] [] =
           [⟨"aw-watcher-afk_h", none, 5, "", "", "", ""⟩]) :=
  ⟨⟨by decide, by decide, by decide, by decide⟩,
    afk_filter_asymmetry ⟨"aw-watcher-afk_h", none, 5, "", "", "", ""⟩
      [⟨"aw-watcher-afk_h", none, 5, "", "", "", ""⟩]
      [(("h" : String), [((0 : ℚ), 1)])] ("h") [((0 : ℚ), 1)]
      (by decide) (by decide) (by decide) (by decide)⟩

theorem clip_dur_le (e : Event) (ts : ℚ) (iv : Ivl) (ev : Event)
    (hc : clipToIvl e ts iv = some ev) : ev.duration ≤ iv.2 - iv.1 := by
  unfold clipToIvl at hc
  by_cases h : max ts iv.1 < min (ts + e.duration) iv.2
  · rw [if_pos h] at hc
    have := (Option.some.injEq _ _).mp hc
    have hd : ev.duration = min (ts + e.duration) iv.2 - max ts iv.1 := by
      rw [← this]
    rw [hd]
    have h1 : min (ts + e.duration) iv.2 ≤ iv.2 := min_le_right _ _
    have h2 : iv.1 ≤ max ts iv.1 := le_max_right _ _
    linarith
  · rw [if_neg h] at hc
    exact absurd hc (by simp)

theorem clip_sum_le (e : Event) (ts : ℚ) :
    ∀ ivs : List Ivl, (∀ p ∈ ivs, p.1 ≤ p.2) →
    ((ivs.filterMap (clipToIvl e ts)).map Event.duration).sum ≤
      (ivs.map (fun p => p.2 - p.1)).sum
  | [], _ => by simp
  | iv :: ivs, hvalid => by
    have ih := clip_sum_le e ts ivs (fun p hp => hvalid p (List.mem_cons_of_mem _ hp))
    have hlen : (0 : ℚ) ≤ iv.2 - iv.1 := by
      have := hvalid iv (List.mem_cons_self _ _)
      linarith
    simp only [List.filterMap_cons]
    cases hc : clipToIvl e ts iv with
    | none =>
      simp only [List.map_cons, List.sum_cons]
      linarith
    | some ev =>
      have hdur := clip_dur_le e ts iv ev hc
      simp only [List.map_cons, List.sum_cons]
      linarith

/-- **C8 (amended).** For every single input event and every host with a
non-empty Active Period Set of well-formed intervals, the sum of the
durations of the output events that `filter_events_by_afk` emits for that
event never exceeds the total duration of that host's set.  (Summed over a
whole event list the bound fails — see the counterexample — because
distinct events are each clipped against the same set.) -/
theorem afk_clip_bounded_per_event (e : Event) (periods : AfkMap) (host : String)
    (ivs : List Ivl)
    (hh : extract_host_from_bucket e.bucket = some host)
    (hl : dictGet periods host = some ivs)
    (hvalid : ∀ p ∈ ivs, p.1 ≤ p.2) :
    ((filter_events_by_afk [e] periods).map Event.duration).sum ≤
      (ivs.map (fun p => p.2 - p.1)).sum := by
  have hpne : periods ≠ [] := by
    rintro rfl
    simp [dictGet] at hl
  have hpe : periods.isEmpty = false := by
    cases periods with
    | nil => exact absurd rfl hpne
    | cons q qs => rfl
  cases hiv : ivs with
  | nil =>
    subst hiv
    simp [filter_events_by_afk, hpe, afkProcessEvent, hh, hl]
  | cons iv ivt =>
    subst hiv
    cases hts : e.timestamp with
    | none =>
      have hsum : (0 : ℚ) ≤ ((iv :: ivt).map (fun p => p.2 - p.1)).sum := by
        apply List.sum_nonneg
        intro x hx
        rcases List.mem_map.mp hx with ⟨p, hp, rfl⟩
        have := hvalid p hp
        linarith
      simpa [filter_events_by_afk, hpe, afkProcessEvent, hh, hl, hts] using hsum
    | some ts =>
      have hb := clip_sum_le e ts (iv :: ivt) hvalid
      simpa [filter_events_by_afk, hpe, afkProcessEvent, hh, hl, hts] using hb

/-- The event used in the C8 counterexample: it exactly covers the sole
active period `[0, 3600)` of host `h1`. -/
def c8ev : Event := ⟨"aw-watcher-window_h1", some 0, 3600, "", "", "", ""⟩

/-- The AFK map used in the C8 counterexample. -/
def c8map : AfkMap := [(("h1" : String), [((0 : ℚ), 3600)])]

/-- **C8 counterexample.** Over a whole event list, the clipped total for a
host can exceed the Active Period Set total: two copies of an event covering
the single active hour clip to 7200 seconds against a 3600-second set. -/
theorem afk_clip_total_counterexample :
    ((filter_events_by_afk [c8ev, c8ev] c8map).map Event.duration).sum = 7200
    ∧ (([((0 : ℚ), 3600)]).map (fun p => p.2 - p.1)).sum = 3600
    ∧ ¬ ((filter_events_by_afk [c8ev, c8ev] c8map).map Event.duration).sum ≤
        (([((0 : ℚ), 3600)]).map (fun p => p.2 - p.1)).sum := by
  have hh : extract_host_from_bucket ("aw-watcher-window_h1") = some ("h1") := by decide
  norm_num [filter_events_by_afk, c8ev, c8map, afkProcessEvent, hh, dictGet,
    List.filterMap_cons, clipToIvl]

/-- Witness for `afk_clip_bounded_per_event` at a concrete input. -/
theorem afk_clip_bounded_per_event_witness :
    (extract_host_from_bucket (Event.bucket c8ev) = some ("h1")
     ∧ dictGet c8map ("h1") = some [((0 : ℚ), 3600)]
     ∧ ∀ p ∈ [((0 : ℚ), 3600)], p.1 ≤ p.2)
    ∧ ((filter_events_by_afk [c8ev] c8map).map Event.duration).sum ≤
        (([((0 : ℚ), 3600)]).map (fun p => p.2 - p.1)).sum :=
  ⟨⟨by decide, by decide, by decide⟩,
    afk_clip_bounded_per_event c8ev c8map ("h1") [((0 : ℚ), 3600)]
      (by decide) (by decide) (by decide)⟩

/-! ## Hour bucketing (`bucket_events_by_hour`, aw_notion_sync.py) -/

/-- An event as `bucket_events_by_hour` sees it after parsing its
timestamp: the local hour of day of its start (`dt.hour`), the seconds
already elapsed within that hour
(`dt.minute * 60 + dt.second + dt.microsecond / 1e6`), and its duration. -/
structure HEvent where
  hour : ℕ
  sih : ℚ
  duration : ℚ
  deriving DecidableEq, Repr

/-- The tail of `bucket_events_by_hour`'s splitting: full 3600-second
fragments while more than one hour of duration remains
(`while remaining_duration > 3600`), then a final fragment carrying the
positive remainder (dropped when zero).  Hour indices wrap modulo 24.
Fragments are copies of the event with only `duration` replaced, keyed by
their bucket hour. -/
def hourLoop (e : HEvent) (h : ℕ) (r : ℚ) : List (ℕ × HEvent) :=
  if hr : 3600 < r then
    (h, { e with duration := 3600 }) :: hourLoop e ((h + 1) % 24) (r - 3600)
  else if 0 < r then [(h, { e with duration := r })] else []
termination_by (Int.ceil r).toNat
decreasing_by
  have h1 : (r - 3600 : ℚ) = r - ((3600 : ℤ) : ℚ) := by norm_num
  rw [h1, Int.ceil_sub_int]
  have h2 : (3600 : ℤ) < Int.ceil r := Int.lt_ceil.mpr (by exact_mod_cast hr)
  omega

/-- The per-event body of `bucket_events_by_hour`: a non-positive duration
or one fitting in the remainder of the start hour keeps the event whole in
its start-hour bucket; otherwise a first fragment fills the remaining
seconds of the start hour (emitted only when positive, in which case the
remaining duration is decremented by it) and `hourLoop` emits the rest. -/
def splitEvent (e : HEvent) : List (ℕ × HEvent) :=
  if e.duration ≤ 0 then [(e.hour, e)]
  else if e.duration ≤ 3600 - e.sih then [(e.hour, e)]
  else
    if 0 < min (3600 - e.sih) e.duration then
      (e.hour, { e with duration := min (3600 - e.sih) e.duration }) ::
        hourLoop e ((e.hour + 1) % 24) (e.duration - min (3600 - e.sih) e.duration)
    else hourLoop e ((e.hour + 1) % 24) e.duration

/-- `bucket_events_by_hour` from `aw_notion_sync.py`: the resulting
hour-keyed dict, as the function sending an hour to its bucket's list. -/
def bucket_events_by_hour (events : List HEvent) (h : ℕ) : List HEvent :=
  ((events.flatMap splitEvent).filter (fun p => p.1 == h)).map Prod.snd

theorem hourLoop_sum_aux (e : HEvent) :
    ∀ (n : ℕ) (h : ℕ) (r : ℚ), (Int.ceil r).toNat ≤ n →
      ((hourLoop e h r).map (fun p => p.2.duration)).sum = max r 0 := by
  intro n
  induction n with
  | zero =>
    intro h r hr
    have hceil : Int.ceil r ≤ 0 := by omega
    have hr0 : r ≤ 0 := by exact_mod_cast Int.ceil_le.mp hceil
    rw [hourLoop]
    rw [dif_neg (by linarith : ¬ (3600 : ℚ) < r), if_neg (not_lt.mpr hr0)]
    simp [max_eq_right hr0]
  | succ n ih =>
    intro h r hr
    rw [hourLoop]
    by_cases h1 : (3600 : ℚ) < r
    · rw [dif_pos h1]
      have hc1 : (r - 3600 : ℚ) = r - ((3600 : ℤ) : ℚ) := by norm_num
      have hc2 : (3600 : ℤ) < Int.ceil r := Int.lt_ceil.mpr (by exact_mod_cast h1)
      have hm : (Int.ceil (r - 3600)).toNat ≤ n := by
        rw [hc1, Int.ceil_sub_int]
        omega
      have := ih ((h + 1) % 24) (r - 3600) hm
      simp only [List.map_cons, List.sum_cons, this]
      have hpos : (0 : ℚ) ≤ r - 3600 := by linarith
      rw [max_eq_left hpos, max_eq_left (by linarith : (0 : ℚ) ≤ r)]
      ring
    · rw [dif_neg h1]
      by_cases h2 : (0 : ℚ) < r
      · rw [if_pos h2]
        simp [max_eq_left (le_of_lt h2)]
      · rw [if_neg h2]
        simp [max_eq_right (not_lt.mp h2)]

theorem hourLoop_sum (e : HEvent) (h : ℕ) (r : ℚ) :
    ((hourLoop e h r).map (fun p => p.2.duration)).sum = max r 0 :=
  hourLoop_sum_aux e (Int.ceil r).toNat h r le_rfl

theorem hourLoop_hours_aux (e : HEvent) :
    ∀ (n : ℕ) (h : ℕ) (r : ℚ), (Int.ceil r).toNat ≤ n → h < 24 →
      ∀ p ∈ hourLoop e h r, p.1 < 24 := by
  intro n
  induction n with
  | zero =>
    intro h r hr h24 p hp
    have hceil : Int.ceil r ≤ 0 := by omega
    have hr0 : r ≤ 0 := by exact_mod_cast Int.ceil_le.mp hceil
    rw [hourLoop, dif_neg (by linarith : ¬ (3600 : ℚ) < r), if_neg (not_lt.mpr hr0)] at hp
    simp at hp
  | succ n ih =>
    intro h r hr h24 p hp
    rw [hourLoop] at hp
    by_cases h1 : (3600 : ℚ) < r
    · rw [dif_pos h1] at hp
      rcases List.mem_cons.mp hp with rfl | hp'
      · exact h24
      · have hc1 : (r - 3600 : ℚ) = r - ((3600 : ℤ) : ℚ) := by norm_num
        have hc2 : (3600 : ℤ) < Int.ceil r := Int.lt_ceil.mpr (by exact_mod_cast h1)
        have hm : (Int.ceil (r - 3600)).toNat ≤ n := by
          rw [hc1, Int.ceil_sub_int]
          omega
        exact ih ((h + 1) % 24) (r - 3600) hm (Nat.mod_lt _ (by norm_num)) p hp'
    · rw [dif_neg h1] at hp
      by_cases h2 : (0 : ℚ) < r
      · rw [if_pos h2] at hp
        simp only [List.mem_singleton] at hp
        subst hp
        exact h24
      · rw [if_neg h2] at hp
        simp at hp

theorem splitEvent_hours (e : HEvent) (h24 : e.hour < 24) :
    ∀ p ∈ splitEvent e, p.1 < 24 := by
  intro p hp
  have hmod : (e.hour + 1) % 24 < 24 := Nat.mod_lt _ (by norm_num)
  unfold splitEvent at hp
  split_ifs at hp with h1 h2 h3
  · simp only [List.mem_singleton] at hp
    subst hp
    exact h24
  · simp only [List.mem_singleton] at hp
    subst hp
    exact h24
  · rcases List.mem_cons.mp hp with rfl | hp'
    · exact h24
    · exact hourLoop_hours_aux e (Int.ceil (e.duration - min (3600 - e.sih) e.duration)).toNat
        _ _ le_rfl hmod p hp'
  · exact hourLoop_hours_aux e (Int.ceil e.duration).toNat _ _ le_rfl hmod p hp

theorem splitEvent_sum (e : HEvent) (hs1 : e.sih < 3600) (hd : 0 < e.duration) :
    ((splitEvent e).map (fun p => p.2.duration)).sum = e.duration := by
  unfold splitEvent
  rw [if_neg (not_le.mpr hd)]
  by_cases h2 : e.duration ≤ 3600 - e.sih
  · rw [if_pos h2]
    simp
  · rw [if_neg h2]
    have hrig : (0 : ℚ) < 3600 - e.sih := by linarith
    have hmin : min (3600 - e.sih) e.duration = 3600 - e.sih := min_eq_left (by linarith)
    rw [hmin, if_pos hrig]
    simp only [List.map_cons, List.sum_cons, hourLoop_sum]
    rw [max_eq_left (by linarith : (0 : ℚ) ≤ e.duration - (3600 - e.sih))]
    ring

theorem bucket_sum (l : List (ℕ × HEvent)) (hl : ∀ p ∈ l, p.1 < 24) :
    ∑ h ∈ Finset.range 24,
        (((l.filter (fun p => p.1 == h)).map Prod.snd).map HEvent.duration).sum
      = (l.map (fun p => p.2.duration)).sum := by
  induction l with
  | nil => simp
  | cons p t ih =>
    have hp := hl p (List.mem_cons_self _ _)
    have ht := fun q hq => hl q (List.mem_cons_of_mem _ hq)
    have hstep : ∀ h : ℕ,
        ((((p :: t).filter (fun q => q.1 == h)).map Prod.snd).map HEvent.duration).sum
          = (if p.1 = h then p.2.duration else 0)
            + (((t.filter (fun q => q.1 == h)).map Prod.snd).map HEvent.duration).sum := by
      intro h
      by_cases hph : p.1 = h
      · simp [List.filter_cons, hph]
      · simp [List.filter_cons, hph]
    rw [Finset.sum_congr rfl (fun h _ => hstep h), Finset.sum_add_distrib, ih ht]
    have hsum : ∑ h ∈ Finset.range 24, (if p.1 = h then p.2.duration else 0)
        = p.2.duration := by
      rw [Finset.sum_ite_eq (Finset.range 24) p.1 (fun _ => p.2.duration)]
      exact if_pos (Finset.mem_range.mpr hp)
    rw [hsum]
    simp

/-- **C3.** For every event with a parseable timestamp (hour within 0–23,
seconds-into-hour within `[0, 3600)`): when the duration is positive, the
fragment durations that `bucket_events_by_hour` distributes over the 24
hour buckets sum exactly to the original duration; and an event with
non-positive duration is placed unchanged, as a single whole event, into
the bucket of its start hour (and nowhere else). -/
theorem bucket_events_by_hour_duration_sum (e : HEvent)
    (h24 : e.hour < 24) (hs0 : 0 ≤ e.sih) (hs1 : e.sih < 3600) :
    (0 < e.duration →
      ∑ h ∈ Finset.range 24, ((bucket_events_by_hour [e] h).map HEvent.duration).sum
        = e.duration)
    ∧ (e.duration ≤ 0 →
      ∀ h, bucket_events_by_hour [e] h = if h = e.hour then [e] else []) := by
  constructor
  · intro hd
    calc ∑ h ∈ Finset.range 24, ((bucket_events_by_hour [e] h).map HEvent.duration).sum
        = ∑ h ∈ Finset.range 24,
            ((((splitEvent e).filter (fun p => p.1 == h)).map Prod.snd).map
              HEvent.duration).sum := by
          refine Finset.sum_congr rfl (fun h _ => ?_)
          unfold bucket_events_by_hour
          simp only [List.flatMap_cons, List.flatMap_nil, List.append_nil]
      _ = ((splitEvent e).map (fun p => p.2.duration)).sum :=
          bucket_sum _ (splitEvent_hours e h24)
      _ = e.duration := splitEvent_sum e hs1 hd
  · intro hd h
    have hsp : splitEvent e = [(e.hour, e)] := by
      unfold splitEvent
      rw [if_pos hd]
    unfold bucket_events_by_hour
    simp only [List.flatMap_cons, List.flatMap_nil, List.append_nil, hsp]
    by_cases hh : h = e.hour
    · subst hh
      simp [List.filter_cons]
    · have hne : ¬ (e.hour = h) := fun heq => hh heq.symm
      simp [List.filter_cons, hne, hh]

/-- Witness for `bucket_events_by_hour_duration_sum` at a concrete event
(start 01:00:30 local, duration 4000 s). -/
theorem bucket_events_by_hour_duration_sum_witness :
    ((⟨1, 30, 4000⟩ : HEvent).hour < 24 ∧ (0 : ℚ) ≤ (⟨1, 30, 4000⟩ : HEvent).sih
      ∧ (⟨1, 30, 4000⟩ : HEvent).sih < 3600)
    ∧ ((0 < (⟨1, 30, 4000⟩ : HEvent).duration →
        ∑ h ∈ Finset.range 24,
            ((bucket_events_by_hour [(⟨1, 30, 4000⟩ : HEvent)] h).map HEvent.duration).sum
          = (⟨1, 30, 4000⟩ : HEvent).duration)
      ∧ ((⟨1, 30, 4000⟩ : HEvent).duration ≤ 0 →
        ∀ h, bucket_events_by_hour [(⟨1, 30, 4000⟩ : HEvent)] h =
          if h = (⟨1, 30, 4000⟩ : HEvent).hour then [(⟨1, 30, 4000⟩ : HEvent)] else [])) :=
  ⟨⟨by norm_num, by norm_num, by norm_num⟩,
    bucket_events_by_hour_duration_sum ⟨1, 30, 4000⟩ (by norm_num) (by norm_num) (by norm_num)⟩

theorem bucket_ne_nil_iff (e : HEvent) (h : ℕ) :
    bucket_events_by_hour [e] h ≠ [] ↔ h ∈ (splitEvent e).map Prod.fst := by
  unfold bucket_events_by_hour
  simp only [List.flatMap_cons, List.flatMap_nil, List.append_nil, Ne,
    List.map_eq_nil_iff, List.filter_eq_nil_iff, not_forall, List.mem_map]
  constructor
  · rintro ⟨p, hp, hbe⟩
    refine ⟨p, hp, ?_⟩
    have := of_not_not hbe
    exact beq_iff_eq.mp this
  · rintro ⟨p, hp, rfl⟩
    exact ⟨p, hp, by simp⟩

/-- **C7 (amended).** For every event whose start falls strictly inside
local hour 23 (positive seconds-into-hour) and whose duration is 7200
seconds, `bucket_events_by_hour` produces fragments in exactly the hour
buckets 23, 0 and 1 (wrapping modulo 24).  When the start is exactly
23:00:00 the fragments land in buckets 23 and 0 only — see the
counterexample. -/
theorem bucket_hour23_spillover (e : HEvent) (hh : e.hour = 23)
    (h0 : 0 < e.sih) (h1 : e.sih < 3600) (hd : e.duration = 7200) :
    (splitEvent e).map Prod.fst = [23, 0, 1]
    ∧ ∀ h, bucket_events_by_hour [e] h ≠ [] ↔ (h = 23 ∨ h = 0 ∨ h = 1) := by
  have key : splitEvent e = [(23, { e with duration := 3600 - e.sih }),
      (0, { e with duration := 3600 }), (1, { e with duration := e.sih })] := by
    unfold splitEvent
    rw [hd, hh]
    rw [if_neg (by norm_num : ¬ (7200 : ℚ) ≤ 0)]
    rw [if_neg (by linarith : ¬ (7200 : ℚ) ≤ 3600 - e.sih)]
    have hmin : min (3600 - e.sih) (7200 : ℚ) = 3600 - e.sih := min_eq_left (by linarith)
    rw [hmin, if_pos (by linarith : (0 : ℚ) < 3600 - e.sih)]
    have hmod1 : (23 + 1) % 24 = 0 := by norm_num
    rw [hmod1, hourLoop]
    rw [dif_pos (by linarith : (3600 : ℚ) < 7200 - (3600 - e.sih))]
    have hmod2 : (0 + 1) % 24 = 1 := by norm_num
    have harg : (7200 : ℚ) - (3600 - e.sih) - 3600 = e.sih := by ring
    rw [hmod2, harg, hourLoop]
    rw [dif_neg (by linarith : ¬ (3600 : ℚ) < e.sih), if_pos h0, hh]
  constructor
  · rw [key]
    simp
  · intro h
    rw [bucket_ne_nil_iff, key]
    simp

/-- Witness for `bucket_hour23_spillover` at a concrete event
(start 23:30:00 local, duration 7200 s). -/
theorem bucket_hour23_spillover_witness :
    ((⟨23, 1800, 7200⟩ : HEvent).hour = 23 ∧ (0 : ℚ) < (⟨23, 1800, 7200⟩ : HEvent).sih
      ∧ (⟨23, 1800, 7200⟩ : HEvent).sih < 3600
      ∧ (⟨23, 1800, 7200⟩ : HEvent).duration = 7200)
    ∧ ((splitEvent (⟨23, 1800, 7200⟩ : HEvent)).map Prod.fst = [23, 0, 1]
      ∧ ∀ h, bucket_events_by_hour [(⟨23, 1800, 7200⟩ : HEvent)] h ≠ [] ↔
          (h = 23 ∨ h = 0 ∨ h = 1)) :=
  ⟨⟨rfl, by norm_num, by norm_num, rfl⟩,
    bucket_hour23_spillover ⟨23, 1800, 7200⟩ rfl (by norm_num) (by norm_num) rfl⟩

/-- **C7 counterexample.** An event starting exactly at 23:00:00 (hour 23,
zero seconds into the hour) with duration 7200 s satisfies the claim's
premise — its start falls within local hour 23 — yet produces fragments in
buckets 23 and 0 only: bucket 1 is empty. -/
theorem bucket_hour23_start_counterexample :
    (⟨23, 0, 7200⟩ : HEvent).hour = 23
    ∧ (⟨23, 0, 7200⟩ : HEvent).duration = 7200
    ∧ bucket_events_by_hour [(⟨23, 0, 7200⟩ : HEvent)] 1 = []
    ∧ (splitEvent (⟨23, 0, 7200⟩ : HEvent)).map Prod.fst = [23, 0] := by
  have key : splitEvent (⟨23, 0, 7200⟩ : HEvent) =
      [(23, (⟨23, 0, 3600⟩ : HEvent)), (0, (⟨23, 0, 3600⟩ : HEvent))] := by
    unfold splitEvent
    norm_num [min_def]
    rw [hourLoop]
    norm_num
  refine ⟨rfl, rfl, ?_, ?_⟩
  · unfold bucket_events_by_hour
    simp [key]
  · rw [key]
    simp

/-! ## Classification tables (aw_analytics_export.py)

Python `set` literals are modelled as lists in the source's literal
order; only membership is ever tested on them.  `TERMINAL_TOOL_PATTERNS`
and `DEV_TOOL_SITES` are Python dicts, whose insertion order the lists
preserve exactly.  (`AI_CHAT_SITES` is a Python set, so its iteration
order is interpreter-dependent; the list keeps the literal order, and the
claims checked here concern domains matched by exactly one entry, for
which the order is immaterial.) -/

def TERMINAL_APPS : List String :=
  ["kitty", "terminal", "iterm2", "alacritty", "warp", "hyper", "wezterm",
   "gnome-terminal", "konsole", "xterm", "windowsterminal", "powershell",
   "pwsh", "cmd", "conhost", "windows terminal"]

def TERMINAL_TOOL_PATTERNS : List (String × String) :=
  [("✳ ", "Claude Code"), ("⠐ ", "Claude Code"), ("⠂ ", "Claude Code"),
   ("claude code", "Claude Code"),
   ("opencode", "OpenCode"), ("oc |", "OpenCode"), ("oc:", "OpenCode"),
   ("| opencode", "OpenCode"),
   ("nvim", "Neovim"), ("neovim", "Neovim"), ("vim", "Vim"),
   ("hx ", "Helix"), ("helix", "Helix"),
   ("lazygit", "LazyGit"), ("lazydocker", "LazyDocker"),
   ("htop", "htop"), ("btop", "btop"),
   ("aider", "Aider"), ("gemini-cli", "Gemini CLI"), ("goose", "Goose"),
   ("ssh ", "SSH"), ("kitten ssh", "SSH"), ("[ssh:", "SSH")]

def AI_CHAT_SITES : List String :=
  ["chatgpt.com", "chat.openai.com", "claude.ai", "gemini.google.com",
   "bard.google.com", "aistudio.google.com", "grok.com", "perplexity.ai",
   "www.perplexity.ai", "t3.chat", "poe.com", "you.com", "phind.com",
   "chat.mistral.ai", "huggingface.co/chat", "pi.ai", "character.ai",
   "copilot.microsoft.com"]

def AI_CHAT_APPS : List String := ["claude", "chatgpt"]

def PLANNING_APPS : List String :=
  ["notion", "logseq", "obsidian", "roam", "craft", "bear", "apple notes",
   "notes", "evernote", "onenote", "remnote", "anytype", "capacities",
   "miro", "whimsical", "excalidraw", "tldraw", "figjam"]

def CODING_APPS : List String :=
  ["kitty", "terminal", "iterm2", "alacritty", "warp", "hyper", "wezterm",
   "windowsterminal", "powershell", "pwsh", "cmd", "conhost",
   "code", "vscode", "visual studio code", "code - insiders", "windsurf",
   "cursor", "vim", "nvim", "neovim", "emacs", "nano", "xcode",
   "android studio", "eclipse", "notepad++",
   "docker", "postman", "insomnia", "dbeaver", "tableplus", "sequel pro",
   "pgadmin"]

def DEV_TOOL_SITES : List (String × String) :=
  [("colab.research.google.com", "Google Colab")]

def EXCLUDED_APPS : List String :=
  ["loginwindow", "screensaverengine", "screeninactivity",
   "explorer", "searchhost", "shellexperiencehost", "lockapp",
   "systemsettings"]

/-- `normalize_app_name`: lowercase and strip a Windows `.exe` suffix. -/
def normalize_app_name (app : String) : String :=
  let a := lowerStr app
  if endsWithStr a (".exe") then String.mk (a.data.take (a.data.length - 4)) else a

/-- `detect_terminal_tool`: first pattern (in dict order) occurring in the
lowercased window title wins. -/
def detect_terminal_tool (title : String) : Option String :=
  (TERMINAL_TOOL_PATTERNS.find? (fun pr => hasSub (lowerStr title) pr.1)).map Prod.snd

/-- The name chosen by `get_ai_chat_name`'s if-chain for a matched site. -/
def aiSiteName (site : String) : String :=
  if hasSub site ("chatgpt") || hasSub site ("openai") then "ChatGPT"
  else if hasSub site ("claude") then "Claude"
  else if hasSub site ("gemini") || hasSub site ("bard") then "Gemini"
  else if hasSub site ("grok") then "Grok"
  else if hasSub site ("perplexity") then "Perplexity"
  else if hasSub site ("aistudio") then "AI Studio"
  else if hasSub site ("t3.chat") then "T3"
  else if hasSub site ("copilot") then "Copilot"
  else if hasSub site ("phind") then "Phind"
  else if hasSub site ("poe") then "Poe"
  else titleCase ((site.splitOn (".")).headD (""))

/-- `get_ai_chat_name`: first site of the table that is a substring or
suffix of the lowercased domain wins. -/
def get_ai_chat_name (domain : String) : Option String :=
  ((AI_CHAT_SITES.find?
      (fun site => hasSub (lowerStr domain) site || endsWithStr (lowerStr domain) site)).map
    aiSiteName)

/-! ## Aggregation (aw_analytics_export.py) -/

/-- Accumulation into a Python `defaultdict(float)`: an existing key is
updated in place (keeping its position), a new key is appended. -/
def addTo : List (String × ℚ) → String → ℚ → List (String × ℚ)
  | [], k, v => [(k, v)]
  | (k', v') :: t, k, v =>
      if k' = k then (k', v' + v) :: t else (k', v') :: addTo t k v

/-- Appending to a `defaultdict(list)` entry. -/
def extendAt {α : Type} : List (String × List α) → String → List α → List (String × List α)
  | [], k, vs => [(k, vs)]
  | (k', vs') :: t, k, vs =>
      if k' = k then (k', vs' ++ vs) :: t else (k', vs') :: extendAt t k vs

/-- Sum of a breakdown dict's values (`sum(d.values())`). -/
def sumVals (m : List (String × ℚ)) : ℚ := (m.map Prod.snd).sum

/-- The four scalar totals of an Aggregate. -/
structure Totals where
  dev_time : ℚ
  planning_time : ℚ
  ai_chat_time : ℚ
  active_time : ℚ
  deriving DecidableEq, Repr

/-- An Aggregate: four breakdown dicts plus the four scalar totals. -/
structure Aggregate where
  dev_tools : List (String × ℚ)
  ai_chats : List (String × ℚ)
  planning_apps : List (String × ℚ)
  top_apps : List (String × ℚ)
  totals : Totals
  deriving DecidableEq, Repr

/-- The four mutable breakdown dicts accumulated while scanning a day's
events. -/
structure AggState where
  dev_tools : List (String × ℚ)
  ai_chats : List (String × ℚ)
  planning_apps : List (String × ℚ)
  all_apps : List (String × ℚ)
  deriving DecidableEq, Repr

/-- Interval derived from one presence event by Stage A of the AFK
reconciler: only `not-afk` status events with a start, an end after the
start. -/
def notAfkInterval (e : Event) : Option Ivl :=
  if e.status ≠ "not-afk" then none
  else
    match e.timestamp with
    | none => none
    | some s => if s + e.duration ≤ s then none else some (s, s + e.duration)

/-- `build_not_afk_periods_by_host`: merge each host's presence intervals
into its Active Period Set. -/
def build_not_afk_periods_by_host (m : List (String × List Event)) : AfkMap :=
  m.map (fun pr => (pr.1, merge_intervals (pr.2.filterMap notAfkInterval)))

/-- Processing of one AFK-filtered window event: excluded or non-positive
events are skipped; otherwise the event is tracked under all apps, then
classified as dev tool (terminals via title patterns, coding apps via
display names with the `code`/`nvim` overrides), planning app, and AI-chat
desktop app (which also counts as planning). -/
def processWindowEvent (st : AggState) (e : Event) : AggState :=
  let app := normalize_app_name e.app
  let d := e.duration
  if d ≤ 0 ∨ app ∈ EXCLUDED_APPS then st
  else
    let st1 := { st with all_apps := addTo st.all_apps app d }
    let st2 :=
      if app ∈ TERMINAL_APPS then
        match detect_terminal_tool e.title with
        | some tool => { st1 with dev_tools := addTo st1.dev_tools tool d }
        | none => { st1 with dev_tools := addTo st1.dev_tools ("Terminal/Shell") d }
      else
        if app ∈ CODING_APPS then
          let display :=
            if app = "code" then "VS Code"
            else if app = "nvim" then "Neovim"
            else titleCase app
          { st1 with dev_tools := addTo st1.dev_tools display d }
        else st1
    let st3 :=
      if app ∈ PLANNING_APPS then
        { st2 with planning_apps := addTo st2.planning_apps (titleCase app) d }
      else st2
    if app ∈ AI_CHAT_APPS then
      let display :=
        if app = "claude" then "Claude"
        else if app = "chatgpt" then "ChatGPT"
        else titleCase app
      { st3 with
        ai_chats := addTo st3.ai_chats display d
        planning_apps := addTo st3.planning_apps display d }
    else st3

/-- Processing of one AFK-filtered browser event: the domain is produced by
the ambient URL parser `nl` (modelling `urlparse(url).netloc`); AI-chat
domains count toward both AI Chat and Planning; a first matching dev-tool
site counts toward dev tools. -/
def processWebEvent (nl : String → String) (st : AggState) (e : Event) : AggState :=
  let domain := nl e.url
  let d := e.duration
  if d ≤ 0 then st
  else
    let st1 :=
      match get_ai_chat_name domain with
      | some nm =>
          { st with
            ai_chats := addTo st.ai_chats nm d
            planning_apps := addTo st.planning_apps nm d }
      | none => st
    match DEV_TOOL_SITES.find? (fun pr => hasSub domain pr.1 || endsWithStr domain pr.1) with
    | some pr => { st1 with dev_tools := addTo st1.dev_tools pr.2 d }
    | none => st1

/-- `aggregate_day_data`: group presence events per host, build the Active
Period Sets, AFK-filter and classify the window events then the browser
events, and derive the scalar totals as the sums of the breakdowns.  The
parameter `nl` models `urlparse(...).netloc` from the Python standard
library. -/
def aggregate_day_data (nl : String → String) (day_data : List (String × List Event)) :
    Aggregate :=
  let afk_by_host := day_data.foldl
    (fun m pr =>
      if hasSub pr.1 ("watcher-afk") then
        match extract_host_from_bucket pr.1 with
        | some host => extendAt m host pr.2
        | none => m
      else m) []
  let periods := build_not_afk_periods_by_host afk_by_host
  let window_events := day_data.foldl
    (fun acc pr =>
      if hasSub pr.1 ("watcher-window") then
        acc ++ pr.2.map (fun e => { e with bucket := pr.1 })
      else acc) []
  let window_filtered := filter_events_by_afk window_events periods
  let st1 := window_filtered.foldl processWindowEvent ⟨[], [], [], []⟩
  let web_events := day_data.foldl
    (fun acc pr =>
      if hasSub pr.1 ("watcher-web") then
        acc ++ pr.2.map (fun e => { e with bucket := pr.1 })
      else acc) []
  let web_filtered := filter_events_by_afk web_events periods
  let st2 := web_filtered.foldl (processWebEvent nl) st1
  { dev_tools := st2.dev_tools
    ai_chats := st2.ai_chats
    planning_apps := st2.planning_apps
    top_apps := st2.all_apps
    totals :=
      { dev_time := sumVals st2.dev_tools
        planning_time := sumVals st2.planning_apps
        ai_chat_time := sumVals st2.ai_chats
        active_time := sumVals st2.all_apps } }

/-- Pointwise merge of one aggregate into the accumulator
(`merge_aggregates`' loop body). -/
def mergeOne (acc : Aggregate) (agg : Aggregate) : Aggregate :=
  { dev_tools := agg.dev_tools.foldl (fun m pr => addTo m pr.1 pr.2) acc.dev_tools
    ai_chats := agg.ai_chats.foldl (fun m pr => addTo m pr.1 pr.2) acc.ai_chats
    planning_apps := agg.planning_apps.foldl (fun m pr => addTo m pr.1 pr.2) acc.planning_apps
    top_apps := agg.top_apps.foldl (fun m pr => addTo m pr.1 pr.2) acc.top_apps
    totals :=
      { dev_time := acc.totals.dev_time + agg.totals.dev_time
        planning_time := acc.totals.planning_time + agg.totals.planning_time
        ai_chat_time := acc.totals.ai_chat_time + agg.totals.ai_chat_time
        active_time := acc.totals.active_time + agg.totals.active_time } }

/-- `merge_aggregates`: fold the days into an initially empty aggregate. -/
def merge_aggregates (aggregates : List Aggregate) : Aggregate :=
  aggregates.foldl mergeOne ⟨[], [], [], [], ⟨0, 0, 0, 0⟩⟩

/-- The §3 sum invariant: each scalar total equals the sum of the values of
its breakdown. -/
def TotalsInv (a : Aggregate) : Prop :=
  a.totals.dev_time = sumVals a.dev_tools
  ∧ a.totals.planning_time = sumVals a.planning_apps
  ∧ a.totals.ai_chat_time = sumVals a.ai_chats
  ∧ a.totals.active_time = sumVals a.top_apps

instance (a : Aggregate) : Decidable (TotalsInv a) :=
  inferInstanceAs (Decidable (_ ∧ _ ∧ _ ∧ _))

theorem addTo_sumVals : ∀ (m : List (String × ℚ)) (k : String) (v : ℚ),
    sumVals (addTo m k v) = sumVals m + v
  | [], k, v => by simp [addTo, sumVals]
  | (k', v') :: t, k, v => by
    by_cases h : k' = k
    · simp only [addTo, if_pos h, sumVals, List.map_cons, List.sum_cons]
      ring
    · have ih := addTo_sumVals t k v
      simp only [addTo, if_neg h, sumVals, List.map_cons, List.sum_cons] at ih ⊢
      rw [ih]
      ring

theorem foldl_addTo_sumVals (l : List (String × ℚ)) :
    ∀ m : List (String × ℚ),
      sumVals (l.foldl (fun m pr => addTo m pr.1 pr.2) m) = sumVals m + sumVals l := by
  induction l with
  | nil =>
    intro m
    simp [sumVals]
  | cons p t ih =>
    intro m
    simp only [List.foldl_cons]
    rw [ih, addTo_sumVals]
    simp only [sumVals, List.map_cons, List.sum_cons]
    ring

theorem mergeOne_totalsInv (acc agg : Aggregate) (ha : TotalsInv acc) (hg : TotalsInv agg) :
    TotalsInv (mergeOne acc agg) := by
  refine ⟨?_, ?_, ?_, ?_⟩ <;>
    simp only [mergeOne, foldl_addTo_sumVals]
  · rw [ha.1, hg.1]
  · rw [ha.2.1, hg.2.1]
  · rw [ha.2.2.1, hg.2.2.1]
  · rw [ha.2.2.2, hg.2.2.2]

/-- **C4.** Every Aggregate returned by `aggregate_day_data` satisfies the
sum invariant (each scalar total equals the sum of its breakdown's values),
and `merge_aggregates` preserves the invariant: if every input aggregate
satisfies it, so does the merged aggregate. -/
theorem aggregate_totals_invariant (nl : String → String)
    (day : List (String × List Event)) (aggs : List Aggregate)
    (h : ∀ a ∈ aggs, TotalsInv a) :
    TotalsInv (aggregate_day_data nl day) ∧ TotalsInv (merge_aggregates aggs) := by
  constructor
  · exact ⟨rfl, rfl, rfl, rfl⟩
  · have hfold : ∀ (l : List Aggregate) (acc : Aggregate),
        (∀ a ∈ l, TotalsInv a) → TotalsInv acc → TotalsInv (l.foldl mergeOne acc) := by
      intro l
      induction l with
      | nil => exact fun acc _ hacc => hacc
      | cons a t ih =>
        intro acc hl hacc
        exact ih _ (fun x hx => hl x (List.mem_cons_of_mem _ hx))
          (mergeOne_totalsInv acc a hacc (hl a (List.mem_cons_self _ _)))
    exact hfold aggs _ h ⟨rfl, rfl, rfl, rfl⟩

/-- Witness for `aggregate_totals_invariant` at concrete inputs (an empty
day and a singleton aggregate list built from it). -/
theorem aggregate_totals_invariant_witness :
    (∀ a ∈ [aggregate_day_data (fun _ => "") []], TotalsInv a)
    ∧ (TotalsInv (aggregate_day_data (fun _ => "") [])
       ∧ TotalsInv (merge_aggregates [aggregate_day_data (fun _ => "") []])) :=
  ⟨by
    intro a ha
    simp only [List.mem_singleton] at ha
    subst ha
    exact ⟨rfl, rfl, rfl, rfl⟩,
    aggregate_totals_invariant (fun _ => "") [] [aggregate_day_data (fun _ => "") []]
      (by
        intro a ha
        simp only [List.mem_singleton] at ha
        subst ha
        exact ⟨rfl, rfl, rfl, rfl⟩)⟩

/-- **C9.** A browser-tab event with positive duration whose URL parses to
domain `chat.openai.com` is labelled `ChatGPT` by `aggregate_day_data`, and
its duration is added both to the `ai_chats` breakdown and to the
`planning_apps` breakdown (the same amount to each): one event counts
toward two categories simultaneously. -/
theorem chatgpt_double_count (ts : Option ℚ) (d : ℚ) (bk ap ttl u st : String)
    (nl : String → String) (hnl : nl u = "chat.openai.com") (hd : 0 < d) :
    (aggregate_day_data nl
        [(("aw-watcher-web_h1" : String), [⟨bk, ts, d, ap, ttl, u, st⟩])]).ai_chats
      = [(("ChatGPT" : String), d)]
    ∧ (aggregate_day_data nl
        [(("aw-watcher-web_h1" : String), [⟨bk, ts, d, ap, ttl, u, st⟩])]).planning_apps
      = [(("ChatGPT" : String), d)]
    ∧ (aggregate_day_data nl
        [(("aw-watcher-web_h1" : String), [⟨bk, ts, d, ap, ttl, u, st⟩])]).totals.ai_chat_time
      = d
    ∧ (aggregate_day_data nl
        [(("aw-watcher-web_h1" : String), [⟨bk, ts, d, ap, ttl, u, st⟩])]).totals.planning_time
      = d := by
  have hafk : hasSub ("aw-watcher-web_h1") ("watcher-afk") = false := by decide
  have hwin : hasSub ("aw-watcher-web_h1") ("watcher-window") = false := by decide
  have hweb : hasSub ("aw-watcher-web_h1") ("watcher-web") = true := by decide
  have hg : get_ai_chat_name ("chat.openai.com") = some ("ChatGPT") := by decide
  have hdev : DEV_TOOL_SITES.find?
      (fun pr => hasSub ("chat.openai.com") pr.1 || endsWithStr ("chat.openai.com") pr.1)
        = none := by decide
  have hagg : aggregate_day_data nl
      [(("aw-watcher-web_h1" : String), [⟨bk, ts, d, ap, ttl, u, st⟩])] =
      ⟨[], [(("ChatGPT" : String), d)], [(("ChatGPT" : String), d)], [], ⟨0, d, d, 0⟩⟩ := by
    simp only [aggregate_day_data, List.foldl_cons, List.foldl_nil, hafk, hweb, hwin,
      Bool.false_eq_true, if_false, if_true, build_not_afk_periods_by_host, List.map_nil,
      List.nil_append, List.map_cons, filter_events_by_afk, List.isEmpty_nil,
      List.isEmpty_cons, processWebEvent, hnl, hg, hdev, addTo, sumVals, List.map_nil,
      List.sum_nil, List.sum_cons, if_neg (not_le.mpr hd)]
    norm_num [sumVals]
  rw [hagg]
  exact ⟨rfl, rfl, rfl, rfl⟩

/-- Witness for `chatgpt_double_count` at a concrete input. -/
theorem chatgpt_double_count_witness :
    ((fun _ : String => ("chat.openai.com" : String)) ("https://chat.openai.com/c/x")
        = "chat.openai.com" ∧ (0 : ℚ) < 600)
    ∧ ((aggregate_day_data (fun _ => ("chat.openai.com" : String))
          [(("aw-watcher-web_h1" : String),
            [⟨"", none, 600, "", "", "https://chat.openai.com/c/x", ""⟩])]).ai_chats
        = [(("ChatGPT" : String), 600)]
      ∧ (aggregate_day_data (fun _ => ("chat.openai.com" : String))
          [(("aw-watcher-web_h1" : String),
            [⟨"", none, 600, "", "", "https://chat.openai.com/c/x", ""⟩])]).planning_apps
        = [(("ChatGPT" : String), 600)]
      ∧ (aggregate_day_data (fun _ => ("chat.openai.com" : String))
          [(("aw-watcher-web_h1" : String),
            [⟨"", none, 600, "", "", "https://chat.openai.com/c/x", ""⟩])]).totals.ai_chat_time
        = 600
      ∧ (aggregate_day_data (fun _ => ("chat.openai.com" : String))
          [(("aw-watcher-web_h1" : String),
            [⟨"", none, 600, "", "", "https://chat.openai.com/c/x", ""⟩])]).totals.planning_time
        = 600) :=
  ⟨⟨rfl, by norm_num⟩,
    chatgpt_double_count none 600 ("") ("") ("") ("https://chat.openai.com/c/x") ("")
      (fun _ => ("chat.openai.com" : String)) rfl (by norm_num)⟩

/-! ## Report generation (aw_analytics_export.py) -/

/-- Python's built-in `round` to the nearest integer: half-to-even. -/
def pyRound (x : ℚ) : ℤ :=
  let f := Int.floor x
  let r := x - f
  if r < 1/2 then f
  else if 1/2 < r then f + 1
  else if Even f then f else f + 1

/-- Python's `round(x, k)` (floats modelled as exact rationals). -/
def roundToDp (k : ℕ) (x : ℚ) : ℚ := (pyRound (x * 10 ^ k)) / 10 ^ k

/-- One entry of a proportion-ranked breakdown list. -/
structure PropEntry where
  name : String
  seconds : ℚ
  minutes : ℚ
  hours : ℚ
  proportion : ℚ
  percentage : ℚ
  deriving DecidableEq, Repr

/-- Sort key of `calculate_proportions`: `key=lambda x: -x[1]`, i.e.
descending by seconds (stable). -/
def valGE (p q : String × ℚ) : Prop := q.2 ≤ p.2

instance : DecidableRel valGE := fun p q => inferInstanceAs (Decidable (q.2 ≤ p.2))

instance : IsTotal (String × ℚ) valGE := ⟨fun p q => le_total q.2 p.2⟩

instance : IsTrans (String × ℚ) valGE := ⟨fun _ _ _ h h' => le_trans h' h⟩

/-- `calculate_proportions`: an all-zero (total = 0) breakdown yields `[]`;
otherwise one entry per key, sorted by seconds descending, carrying
rounded seconds/minutes/hours and the share of this breakdown's total. -/
def calculate_proportions (m : List (String × ℚ)) : List PropEntry :=
  let total := sumVals m
  if total = 0 then []
  else
    (List.insertionSort valGE m).map (fun pr =>
      ⟨pr.1, roundToDp 1 pr.2, roundToDp 1 (pr.2 / 60), roundToDp 2 (pr.2 / 3600),
       roundToDp 4 (pr.2 / total), roundToDp 1 (100 * pr.2 / total)⟩)

/-- The `seconds`/`minutes`/`hours` triple of a summary line. -/
structure ReportTime where
  seconds : ℚ
  minutes : ℚ
  hours : ℚ
  deriving DecidableEq, Repr

/-- The `summary` block of a report. -/
structure Summary where
  total_active_time : ReportTime
  dev_time : ReportTime
  planning_time : ReportTime
  ai_chat_time : ReportTime
  dev_ratio : ℚ
  planning_ratio : ℚ
  deriving DecidableEq, Repr

/-- A generated report. -/
structure Report where
  period_type : String
  period_label : String
  start_date : String
  end_date : String
  summary : Summary
  dev_tools_breakdown : List PropEntry
  ai_chats_breakdown : List PropEntry
  planning_breakdown : List PropEntry
  top_apps : List PropEntry
  deriving DecidableEq, Repr

/-- The repeated `seconds/minutes/hours` dict of `generate_report`, with
its 1/1/2-decimal roundings. -/
def mkReportTime (x : ℚ) : ReportTime :=
  ⟨roundToDp 1 x, roundToDp 1 (x / 60), roundToDp 2 (x / 3600)⟩

/-- `generate_report` from `aw_analytics_export.py`. -/
def generate_report (aggregate : Aggregate)
    (period_type period_label start_date end_date : String) : Report :=
  let dev_time := aggregate.totals.dev_time
  let planning_time := aggregate.totals.planning_time
  let total_focused := dev_time + planning_time
  let dev_ratio := if 0 < total_focused then dev_time / total_focused else 0
  let planning_ratio := if 0 < total_focused then planning_time / total_focused else 0
  { period_type := period_type
    period_label := period_label
    start_date := start_date
    end_date := end_date
    summary :=
      { total_active_time := mkReportTime aggregate.totals.active_time
        dev_time := mkReportTime dev_time
        planning_time := mkReportTime planning_time
        ai_chat_time := mkReportTime aggregate.totals.ai_chat_time
        dev_ratio := roundToDp 3 dev_ratio
        planning_ratio := roundToDp 3 planning_ratio }
    dev_tools_breakdown := calculate_proportions aggregate.dev_tools
    ai_chats_breakdown := calculate_proportions aggregate.ai_chats
    planning_breakdown := calculate_proportions aggregate.planning_apps
    top_apps := (calculate_proportions aggregate.top_apps).take 10 }

theorem foldl_mergeOne_totals (l : List Aggregate) :
    ∀ acc : Aggregate,
      (l.foldl mergeOne acc).totals.dev_time
          = acc.totals.dev_time + (l.map (fun a => a.totals.dev_time)).sum
      ∧ (l.foldl mergeOne acc).totals.planning_time
          = acc.totals.planning_time + (l.map (fun a => a.totals.planning_time)).sum
      ∧ (l.foldl mergeOne acc).totals.ai_chat_time
          = acc.totals.ai_chat_time + (l.map (fun a => a.totals.ai_chat_time)).sum
      ∧ (l.foldl mergeOne acc).totals.active_time
          = acc.totals.active_time + (l.map (fun a => a.totals.active_time)).sum := by
  induction l with
  | nil =>
    intro acc
    simp
  | cons a t ih =>
    intro acc
    have h := ih (mergeOne acc a)
    simp only [List.foldl_cons, List.map_cons, List.sum_cons]
    refine ⟨?_, ?_, ?_, ?_⟩
    · rw [h.1]
      simp only [mergeOne]
      ring
    · rw [h.2.1]
      simp only [mergeOne]
      ring
    · rw [h.2.2.1]
      simp only [mergeOne]
      ring
    · rw [h.2.2.2]
      simp only [mergeOne]
      ring

/-- **C5 (amended).** The merged aggregate's totals are the exact field-wise
sums of the daily totals, and the Report built from the merge carries those
sums rounded once to one decimal.  The claim's literal form — merged-report
summary seconds equal to the sum of the per-day reports' summary seconds —
fails, because each per-day report rounds its own total first (see the
counterexample). -/
theorem report_totals_of_merge (aggs : List Aggregate) (pt pl sd ed : String) :
    (generate_report (merge_aggregates aggs) pt pl sd ed).summary.total_active_time.seconds
      = roundToDp 1 ((aggs.map (fun a => a.totals.active_time)).sum)
    ∧ (generate_report (merge_aggregates aggs) pt pl sd ed).summary.dev_time.seconds
      = roundToDp 1 ((aggs.map (fun a => a.totals.dev_time)).sum)
    ∧ (generate_report (merge_aggregates aggs) pt pl sd ed).summary.planning_time.seconds
      = roundToDp 1 ((aggs.map (fun a => a.totals.planning_time)).sum)
    ∧ (generate_report (merge_aggregates aggs) pt pl sd ed).summary.ai_chat_time.seconds
      = roundToDp 1 ((aggs.map (fun a => a.totals.ai_chat_time)).sum) := by
  have h := foldl_mergeOne_totals aggs ⟨[], [], [], [], ⟨0, 0, 0, 0⟩⟩
  refine ⟨?_, ?_, ?_, ?_⟩
  · show roundToDp 1 (merge_aggregates aggs).totals.active_time = _
    rw [merge_aggregates, h.2.2.2]
    norm_num
  · show roundToDp 1 (merge_aggregates aggs).totals.dev_time = _
    rw [merge_aggregates, h.1]
    norm_num
  · show roundToDp 1 (merge_aggregates aggs).totals.planning_time = _
    rw [merge_aggregates, h.2.1]
    norm_num
  · show roundToDp 1 (merge_aggregates aggs).totals.ai_chat_time = _
    rw [merge_aggregates, h.2.2.1]
    norm_num

/-- The event of the C5 counterexample: 0.04 s of focus on app `code`. -/
def c5ev : Event := ⟨"", none, 1/25, "code", "", "", ""⟩

/-- One day's capture for the C5 counterexample. -/
def c5day : List (String × List Event) := [(("aw-watcher-window_h1" : String), [c5ev])]

/-- The daily Aggregate of the C5 counterexample. -/
def c5agg : Aggregate := aggregate_day_data (fun _ => "") c5day

theorem c5agg_eval : c5agg =
    ⟨[(("VS Code" : String), 1/25)], [], [], [(("code" : String), 1/25)],
      ⟨1/25, 0, 0, 1/25⟩⟩ := by
  have h1 : hasSub ("aw-watcher-window_h1") ("watcher-afk") = false := by decide
  have h2 : hasSub ("aw-watcher-window_h1") ("watcher-window") = true := by decide
  have h3 : hasSub ("aw-watcher-window_h1") ("watcher-web") = false := by decide
  have h4 : normalize_app_name ("code") = "code" := by decide
  have h5 : ¬ (("code" : String) ∈ EXCLUDED_APPS) := by decide
  have h6 : ¬ (("code" : String) ∈ TERMINAL_APPS) := by decide
  have h7 : ("code" : String) ∈ CODING_APPS := by decide
  have h8 : ¬ (("code" : String) ∈ PLANNING_APPS) := by decide
  have h9 : ¬ (("code" : String) ∈ AI_CHAT_APPS) := by decide
  have hcond : ¬ ((1 / 25 : ℚ) ≤ 0 ∨ ("code" : String) ∈ EXCLUDED_APPS) :=
    not_or.mpr ⟨by norm_num, h5⟩
  simp only [c5agg, c5day, c5ev, aggregate_day_data, List.foldl_cons, List.foldl_nil,
    h1, h2, h3, Bool.false_eq_true, if_false, if_true, build_not_afk_periods_by_host,
    List.map_nil, List.nil_append, List.map_cons, filter_events_by_afk,
    List.isEmpty_nil, List.isEmpty_cons, processWindowEvent, h4, hcond, h6, h7, h8, h9,
    if_neg, if_pos, addTo, sumVals]
  norm_num [sumVals]

/-- **C5 counterexample.** Two equal daily Aggregates (0.04 s of active time
each, produced by `aggregate_day_data` from a real day's shape): the merged
report shows 0.1 s of active time while each daily report shows 0.0 s, so
the merged-report summary seconds (0.1) differ from the sum of the daily
reports' summary seconds (0.0) — per-day rounding breaks literal
additivity. -/
theorem report_totals_not_additive :
    c5agg.totals.active_time = 1/25
    ∧ (generate_report (merge_aggregates [c5agg, c5agg])
        ("weekly") ("w") ("a") ("b")).summary.total_active_time.seconds = 1/10
    ∧ (generate_report c5agg ("daily") ("d") ("a") ("b")).summary.total_active_time.seconds
        = 0
    ∧ ¬ ((generate_report (merge_aggregates [c5agg, c5agg])
          ("weekly") ("w") ("a") ("b")).summary.total_active_time.seconds
        = (generate_report c5agg ("daily") ("d") ("a") ("b")).summary.total_active_time.seconds
          + (generate_report c5agg ("daily") ("d") ("a") ("b")).summary.total_active_time.seconds) := by
  have hval : c5agg.totals.active_time = 1/25 := by
    rw [c5agg_eval]
  have hm : (merge_aggregates [c5agg, c5agg]).totals.active_time = 2/25 := by
    have h := foldl_mergeOne_totals [c5agg, c5agg] ⟨[], [], [], [], ⟨0, 0, 0, 0⟩⟩
    rw [merge_aggregates, h.2.2.2]
    simp only [List.map_cons, List.map_nil, List.sum_cons, List.sum_nil, hval]
    norm_num
  have hsecM : (generate_report (merge_aggregates [c5agg, c5agg])
      ("weekly") ("w") ("a") ("b")).summary.total_active_time.seconds = 1/10 := by
    show roundToDp 1 (merge_aggregates [c5agg, c5agg]).totals.active_time = 1/10
    rw [hm]
    norm_num [roundToDp, pyRound]
  have hsecD : (generate_report c5agg
      ("daily") ("d") ("a") ("b")).summary.total_active_time.seconds = 0 := by
    show roundToDp 1 c5agg.totals.active_time = 0
    rw [hval]
    norm_num [roundToDp, pyRound]
  refine ⟨hval, hsecM, hsecD, ?_⟩
  rw [hsecM, hsecD]
  norm_num

/-! ## Per-day loading and deduplication (aw_notion_sync.py) -/

/-- A raw decoded record as `load_aw_data_for_journal_day` sees it: the raw
timestamp text, the duration, and the payload discriminator fields
(`data.get("app")`, `data.get("title")`, `data.get("url")`; `none` when
absent). -/
structure RawEvent where
  tsStr : String
  duration : ℚ
  app : Option String
  title : Option String
  url : Option String
  deriving DecidableEq, Repr

/-- The dedup identity key:
`(bucket_name, ts_str, data.get("app"), data.get("title"), data.get("url"))`
— explicitly excluding duration. -/
abbrev Key := String × String × Option String × Option String × Option String

def dedupKey (bucket : String) (e : RawEvent) : Key :=
  (bucket, e.tsStr, e.app, e.title, e.url)

/-- The insertion-ordered `seen_events` dict. -/
abbrev Seen := List (Key × RawEvent)

/-- Membership lookup in `seen_events` (`if key in seen_events`). -/
def findKey : Seen → Key → Option RawEvent
  | [], _ => none
  | (k', v) :: t, k => if k' = k then some v else findKey t k

/-- Processing of one record: skip an empty raw timestamp; skip a key
already seen (first-seen wins, checked before the timezone filtering);
otherwise parse the timestamp (the `parse` parameter models
`parse_timestamp`, `none` standing for a raised exception) and store the
record iff its instant lies within the journal day `[dayStart, dayEnd)`. -/
def loadStep (parse : String → Option ℚ) (dayStart dayEnd : ℚ)
    (seen : Seen) (bucket : String) (e : RawEvent) : Seen :=
  if e.tsStr = "" then seen
  else if (findKey seen (dedupKey bucket e)).isSome then seen
  else
    match parse e.tsStr with
    | none => seen
    | some dt =>
        if dayStart ≤ dt ∧ dt < dayEnd then seen ++ [(dedupKey bucket e, e)] else seen

/-- One loaded file's decoded contents: bucket name → record list. -/
abbrev RawFile := List (String × List RawEvent)

def processBucket (parse : String → Option ℚ) (ds de : ℚ)
    (seen : Seen) (bucket : String) (evs : List RawEvent) : Seen :=
  evs.foldl (fun s e => loadStep parse ds de s bucket e) seen

def processFile (parse : String → Option ℚ) (ds de : ℚ) (seen : Seen) (f : RawFile) : Seen :=
  f.foldl (fun s pr => processBucket parse ds de s pr.1 pr.2) seen

/-- The dedup/filter core of `load_aw_data_for_journal_day`: fold the
matching files, in order, into the `seen_events` dict. -/
def loadSeen (parse : String → Option ℚ) (ds de : ℚ) (files : List RawFile) : Seen :=
  files.foldl (processFile parse ds de) []

/-- `load_aw_data_for_journal_day`: the final regrouping of `seen_events`
by source bucket (`merged` in the source), in insertion order. -/
def load_aw_data_for_journal_day (parse : String → Option ℚ) (ds de : ℚ)
    (files : List RawFile) : List (String × List RawEvent) :=
  (loadSeen parse ds de files).foldl (fun m pr => extendAt m pr.1.1 [pr.2]) []

/-- A record that `loadStep` would store from an empty dict: non-empty raw
timestamp text that parses to an instant inside the journal day. -/
def stored (parse : String → Option ℚ) (ds de : ℚ) (e : RawEvent) : Prop :=
  e.tsStr ≠ "" ∧ ∃ dt, parse e.tsStr = some dt ∧ ds ≤ dt ∧ dt < de

theorem findKey_append_of_some {s t : Seen} {k : Key} {v : RawEvent}
    (h : findKey s k = some v) : findKey (s ++ t) k = some v := by
  induction s with
  | nil => simp [findKey] at h
  | cons p s ih =>
    rcases p with ⟨k', v'⟩
    by_cases hk : k' = k
    · simp only [findKey, if_pos hk] at h
      simp only [List.cons_append, findKey, if_pos hk]
      exact h
    · simp only [findKey, if_neg hk] at h
      simp only [List.cons_append, findKey, if_neg hk]
      exact ih h

theorem findKey_append_isSome {s t : Seen} {k : Key}
    (h : (findKey s k).isSome) : (findKey (s ++ t) k).isSome := by
  rcases Option.isSome_iff_exists.mp h with ⟨v, hv⟩
  rw [findKey_append_of_some hv]
  rfl

theorem findKey_append_right {s t : Seen} {k : Key} (h : findKey s k = none) :
    findKey (s ++ t) k = findKey t k := by
  induction s with
  | nil => simp
  | cons p s ih =>
    rcases p with ⟨k', v'⟩
    by_cases hk : k' = k
    · simp only [findKey, if_pos hk] at h
      exact absurd h (by simp)
    · simp only [findKey, if_neg hk] at h
      simp only [List.cons_append, findKey, if_neg hk]
      exact ih h

theorem loadStep_mono (parse : String → Option ℚ) (ds de : ℚ) (s : Seen)
    (b : String) (e : RawEvent) :
    ∃ t, loadStep parse ds de s b e = s ++ t := by
  by_cases h1 : e.tsStr = ""
  · exact ⟨[], by simp [loadStep, h1]⟩
  · by_cases h2 : (findKey s (dedupKey b e)).isSome
    · exact ⟨[], by simp [loadStep, h1, h2]⟩
    · cases hp : parse e.tsStr with
      | none => exact ⟨[], by simp [loadStep, h1, h2, hp]⟩
      | some dt =>
        by_cases h3 : ds ≤ dt ∧ dt < de
        · exact ⟨[(dedupKey b e, e)],
            by simp only [loadStep, if_neg h1, if_neg h2, Bool.false_eq_true, if_false,
              hp, if_pos h3]⟩
        · exact ⟨[], by
            simp only [loadStep, if_neg h1, if_neg h2, Bool.false_eq_true, if_false,
              hp, if_neg h3, List.append_nil]⟩

theorem processBucket_mono (parse : String → Option ℚ) (ds de : ℚ)
    (b : String) : ∀ (evs : List RawEvent) (s : Seen),
    ∃ t, processBucket parse ds de s b evs = s ++ t
  | [], s => ⟨[], by simp [processBucket]⟩
  | e :: evs, s => by
    obtain ⟨t1, h1⟩ := loadStep_mono parse ds de s b e
    obtain ⟨t2, h2⟩ := processBucket_mono parse ds de b evs (loadStep parse ds de s b e)
    exact ⟨t1 ++ t2, by
      simp only [processBucket, List.foldl_cons] at h2 ⊢
      rw [h2, h1, List.append_assoc]⟩

theorem processFile_mono (parse : String → Option ℚ) (ds de : ℚ) :
    ∀ (f : RawFile) (s : Seen), ∃ t, processFile parse ds de s f = s ++ t
  | [], s => ⟨[], by simp [processFile]⟩
  | pr :: f, s => by
    obtain ⟨t1, h1⟩ := processBucket_mono parse ds de pr.1 pr.2 s
    obtain ⟨t2, h2⟩ := processFile_mono parse ds de f (processBucket parse ds de s pr.1 pr.2)
    exact ⟨t1 ++ t2, by
      simp only [processFile, List.foldl_cons] at h2 ⊢
      rw [h2, h1, List.append_assoc]⟩

theorem loadStep_present (parse : String → Option ℚ) (ds de : ℚ) (s : Seen)
    (b : String) (e : RawEvent) (hst : stored parse ds de e) :
    (findKey (loadStep parse ds de s b e) (dedupKey b e)).isSome := by
  obtain ⟨hts, dt, hp, hin⟩ := hst
  by_cases h2 : (findKey s (dedupKey b e)).isSome
  · simp only [loadStep, if_neg hts, if_pos h2]
    exact h2
  · have hnone : findKey s (dedupKey b e) = none := Option.not_isSome_iff_eq_none.mp h2
    simp only [loadStep, if_neg hts, if_neg h2, Bool.false_eq_true, if_false, hp,
      if_pos hin]
    rw [findKey_append_right hnone]
    simp [findKey]

theorem loadStep_of_not_stored (parse : String → Option ℚ) (ds de : ℚ) (s : Seen)
    (b : String) (e : RawEvent) (hst : ¬ stored parse ds de e) :
    loadStep parse ds de s b e = s := by
  by_cases h1 : e.tsStr = ""
  · simp [loadStep, h1]
  · by_cases h2 : (findKey s (dedupKey b e)).isSome
    · simp [loadStep, h1, h2]
    · cases hp : parse e.tsStr with
      | none => simp [loadStep, h1, h2, hp]
      | some dt =>
        by_cases h3 : ds ≤ dt ∧ dt < de
        · exact absurd ⟨h1, dt, hp, h3⟩ hst
        · simp only [loadStep, if_neg h1, if_neg h2, Bool.false_eq_true, if_false, hp,
            if_neg h3]

theorem loadStep_of_present (parse : String → Option ℚ) (ds de : ℚ) (s : Seen)
    (b : String) (e : RawEvent) (h : (findKey s (dedupKey b e)).isSome) :
    loadStep parse ds de s b e = s := by
  unfold loadStep
  by_cases h1 : e.tsStr = ""
  · rw [if_pos h1]
  · rw [if_neg h1, if_pos h]

theorem processBucket_present (parse : String → Option ℚ) (ds de : ℚ) (b : String) :
    ∀ (evs : List RawEvent) (s : Seen) (e : RawEvent), e ∈ evs →
      stored parse ds de e →
      (findKey (processBucket parse ds de s b evs) (dedupKey b e)).isSome
  | [], _, _, he, _ => by simp at he
  | e' :: evs, s, e, he, hst => by
    rcases List.mem_cons.mp he with rfl | he'
    · have h1 := loadStep_present parse ds de s b e hst
      obtain ⟨t, ht⟩ := processBucket_mono parse ds de b evs (loadStep parse ds de s b e)
      simp only [processBucket, List.foldl_cons] at *
      rw [ht]
      exact findKey_append_isSome h1
    · exact processBucket_present parse ds de b evs _ e he' hst

theorem processFile_present (parse : String → Option ℚ) (ds de : ℚ) :
    ∀ (f : RawFile) (s : Seen) (b : String) (evs : List RawEvent) (e : RawEvent),
      (b, evs) ∈ f → e ∈ evs → stored parse ds de e →
      (findKey (processFile parse ds de s f) (dedupKey b e)).isSome
  | [], _, _, _, _, hf, _, _ => by simp at hf
  | pr :: f, s, b, evs, e, hf, he, hst => by
    rcases List.mem_cons.mp hf with rfl | hf'
    · have h1 := processBucket_present parse ds de b evs s e he hst
      obtain ⟨t, ht⟩ := processFile_mono parse ds de f (processBucket parse ds de s b evs)
      simp only [processFile, List.foldl_cons] at *
      rw [ht]
      exact findKey_append_isSome h1
    · exact processFile_present parse ds de f _ b evs e hf' he hst

theorem processBucket_fixed (parse : String → Option ℚ) (ds de : ℚ) (b : String) :
    ∀ (evs : List RawEvent) (s : Seen),
      (∀ e ∈ evs, loadStep parse ds de s b e = s) →
      processBucket parse ds de s b evs = s
  | [], s, _ => by simp [processBucket]
  | e :: evs, s, h => by
    have h1 := h e (List.mem_cons_self _ _)
    simp only [processBucket, List.foldl_cons, h1]
    exact processBucket_fixed parse ds de b evs s
      (fun e' he' => h e' (List.mem_cons_of_mem _ he'))

theorem processFile_fixed (parse : String → Option ℚ) (ds de : ℚ) :
    ∀ (f : RawFile) (s : Seen),
      (∀ pr ∈ f, processBucket parse ds de s pr.1 pr.2 = s) →
      processFile parse ds de s f = s
  | [], s, _ => by simp [processFile]
  | pr :: f, s, h => by
    have h1 := h pr (List.mem_cons_self _ _)
    simp only [processFile, List.foldl_cons, h1]
    exact processFile_fixed parse ds de f s
      (fun pr' hpr' => h pr' (List.mem_cons_of_mem _ hpr'))

theorem processFile_idem (parse : String → Option ℚ) (ds de : ℚ) (f : RawFile)
    (s : Seen) :
    processFile parse ds de (processFile parse ds de s f) f
      = processFile parse ds de s f := by
  set s' := processFile parse ds de s f with hs'
  apply processFile_fixed
  intro pr hpr
  apply processBucket_fixed
  intro e he
  by_cases hst : stored parse ds de e
  · exact loadStep_of_present parse ds de s' pr.1 e
      (processFile_present parse ds de f s pr.1 pr.2 e (by rwa [Prod.mk.eta]) he hst)
  · exact loadStep_of_not_stored parse ds de s' pr.1 e hst

/-- **C6.** Deduplication in `load_aw_data_for_journal_day` identifies a
record by `(bucket, raw timestamp text, app, title, url)` — explicitly
excluding duration, so a record differing only in duration collapses into
the first-seen one — and presenting the same file's contents twice (for any
parser behaviour and day bounds) yields exactly the same `seen_events` dict
and the same per-bucket event lists as presenting it once. -/
theorem load_dedup_idempotent (parse : String → Option ℚ) (ds de : ℚ) (f : RawFile)
    (b : String) (e : RawEvent) (d' : ℚ) :
    loadSeen parse ds de [f, f] = loadSeen parse ds de [f]
    ∧ load_aw_data_for_journal_day parse ds de [f, f]
        = load_aw_data_for_journal_day parse ds de [f]
    ∧ dedupKey b { e with duration := d' } = dedupKey b e
    ∧ loadSeen parse ds de [[(b, [e, { e with duration := d' }])]]
        = loadSeen parse ds de [[(b, [e])]] := by
  have h1 : loadSeen parse ds de [f, f] = loadSeen parse ds de [f] := by
    simp only [loadSeen, List.foldl_cons, List.foldl_nil]
    exact processFile_idem parse ds de f []
  refine ⟨h1, by rw [load_aw_data_for_journal_day, h1, load_aw_data_for_journal_day],
    rfl, ?_⟩
  have hkey : dedupKey b { e with duration := d' } = dedupKey b e := rfl
  have hts : ({ e with duration := d' } : RawEvent).tsStr = e.tsStr := rfl
  simp only [loadSeen, List.foldl_cons, List.foldl_nil, processFile, processBucket]
  by_cases hst : stored parse ds de e
  · have hpres := loadStep_present parse ds de [] b e hst
    rw [← hkey] at hpres
    exact loadStep_of_present parse ds de _ b _ hpres
  · have h2 : loadStep parse ds de [] b e = [] :=
      loadStep_of_not_stored parse ds de [] b e hst
    have hst' : ¬ stored parse ds de { e with duration := d' } := by
      intro hcon
      exact hst ⟨hcon.1, hcon.2⟩
    rw [h2, loadStep_of_not_stored parse ds de [] b _ hst']

end AW
